import Mathlib

/-!
Verification of the document-vectorization ingestion pipeline
(`index_documents.py`) against its natural-language specification.

Python strings are embedded as `List Char` (`Str`).  The pure text
functions (`clean_chunk`, `enforce_max_length`, `split_text_fixed`,
`split_text_sentence`, `split_text_paragraph`, `chunk_text`,
`extract_text` dispatch, path suffix/name computation) are translated
directly from the source.  The external collaborators (file system,
PDF/DOCX extractors, embedding service, database) are modelled as an
`Env` of fallible calls, and `process_document` is embedded as a pure
function from an `Env` and its two string arguments to a result record
that also carries the observable trace of the run (connection opened /
closed, committed, rolled back, number of embedding calls, rows visible
in the store after the run).

Notes on fidelity:
* Python's implicit `return None` at the end of `process_document` is
  embedded as success value `Option Nat := none`; the record count the
  function prints is deliberately not part of the return value, exactly
  as in the source.
* Whitespace is the ASCII whitespace set recognized by `str.strip` and
  by `\s` in the regexes of the source (space, tab, newline, carriage
  return, vertical tab, form feed); non-ASCII Unicode whitespace is not
  modelled, and no claim depends on it.
* The `while` loop of `split_text_fixed` need not terminate in Python
  when `overlap >= chunk_size`; it is embedded with explicit fuel
  (`text.length + 1` iterations, enough whenever `overlap <
  chunk_size`, the configuration precondition stated by the spec).
-/

abbrev Str := List Char

/-- ASCII whitespace as recognized by Python's `str.strip` and `\s`. -/
def isPyWs (c : Char) : Bool :=
  c = ' ' || c = '\t' || c = '\n' || c = '\r' || c = '\x0b' || c = '\x0c'

/-- Characters matched by the class `[ \t]` in `clean_chunk`'s first regex. -/
def isSpTab (c : Char) : Bool := c = ' ' || c = '\t'

/-- Characters matched by `\n+` in `clean_chunk`'s second regex. -/
def isNlChar (c : Char) : Bool := c = '\n'

/-- Sentence-ending punctuation of the `(?<=[.!?])` lookbehind. -/
def isSentPunct (c : Char) : Bool := c = '.' || c = '!' || c = '?'

/-- Embeds Python's `str.strip()`: drop leading and trailing whitespace. -/
def stripList (l : Str) : Str :=
  ((l.dropWhile isPyWs).reverse.dropWhile isPyWs).reverse

/-- Embeds `re.sub` of a character-class-run pattern (`[ \t]+` or `\n+`)
by a single replacement character: each maximal run of characters
satisfying `p` is replaced by the single character `rep`.  The flag
records whether the previous input character belonged to a run. -/
def collapseAux (p : Char → Bool) (rep : Char) : Bool → Str → Str
  | _, [] => []
  | inRun, c :: cs =>
    if p c then
      if inRun then collapseAux p rep true cs
      else rep :: collapseAux p rep true cs
    else c :: collapseAux p rep false cs

/-- Embeds `re.sub(r'[ \t]+', ' ', text)`. -/
def collapseSpaces (l : Str) : Str := collapseAux isSpTab ' ' false l

/-- Embeds `re.sub(r'\n+', '\n', text)`. -/
def collapseNewlines (l : Str) : Str := collapseAux isNlChar '\n' false l

/-- Embeds `clean_chunk`: collapse space/tab runs, collapse newline runs,
then strip. -/
def clean_chunk (l : Str) : Str :=
  stripList (collapseNewlines (collapseSpaces l))

/-- The module constant `MAX_CHARS = 6000`. -/
def MAX_CHARS : Nat := 6000

/-- Number of elements of Python's `range(0, stop, step)` (empty when
`step = 0`, where Python instead raises; the embedding is only used
with positive steps). -/
def pyRangeLen (stop step : Nat) : Nat :=
  if step = 0 then 0 else (stop + step - 1) / step

/-- Embeds Python's `range(0, stop, step)` as the list of its elements. -/
def pyRange (stop step : Nat) : List Nat :=
  (List.range (pyRangeLen stop step)).map (fun i => i * step)

/-- Embeds the Python slice `l[i:j]` for non-negative bounds. -/
def pySlice (l : Str) (i j : Nat) : Str := (l.drop i).take (j - i)

/-- Embeds `enforce_max_length`:
`[text[i:i + max_chars] for i in range(0, len(text), max_chars)]`.
The Python parameter default `max_chars = MAX_CHARS` is passed
explicitly at the call site inside the pipeline. -/
def enforce_max_length (text : Str) (max_chars : Nat) : List Str :=
  (pyRange text.length max_chars).map (fun i => pySlice text i (i + max_chars))

/-- The `while start < len(text)` loop body of `split_text_fixed`, with
explicit fuel bounding the number of iterations.  Each iteration slices
`text[start:start + chunk_size]`, keeps it when `chunk.strip()` is
truthy, and advances `start` by `chunk_size - overlap`. -/
def split_text_fixed_loop (text : Str) (chunk_size overlap : Nat) :
    Nat → Nat → List Str
  | 0, _ => []
  | fuel + 1, start =>
    if start < text.length then
      let chunk := pySlice text start (start + chunk_size)
      let rest := split_text_fixed_loop text chunk_size overlap fuel
        (start + (chunk_size - overlap))
      if (stripList chunk).isEmpty then rest else chunk :: rest
    else []

/-- Embeds `split_text_fixed` (defaults `chunk_size=500, overlap=50` are
passed explicitly at the call site).  Fuel `text.length + 1` performs at
least as many iterations as the Python loop whenever
`overlap < chunk_size`. -/
def split_text_fixed (text : Str) (chunk_size overlap : Nat) : List Str :=
  split_text_fixed_loop text chunk_size overlap (text.length + 1) 0

/-- Scanner for `re.split(r'(?<=[.!?])\s+', text)`.  `inGap` is true
while consuming the greedy whitespace run of a match; `acc` holds the
current segment in reverse.  A split happens at a whitespace character
preceded by `.`, `!` or `?`, i.e. when the current character is such
punctuation and the next character is whitespace. -/
def sentSplitAux : Bool → Str → Str → List Str
  | _, acc, [] => [acc.reverse]
  | inGap, acc, c :: rest =>
    if inGap && isPyWs c then sentSplitAux true acc rest
    else if isSentPunct c && (rest.head?.elim false isPyWs) then
      (c :: acc).reverse :: sentSplitAux true [] rest
    else sentSplitAux false (c :: acc) rest

/-- Embeds `split_text_sentence`: regex split on sentence boundaries,
keeping segments whose `strip()` is truthy. -/
def split_text_sentence (text : Str) : List Str :=
  (sentSplitAux false [] text).filter (fun s => !(stripList s).isEmpty)

/-- Embeds `split_text_paragraph`: `text.split('\n')`, keeping segments
whose `strip()` is truthy. -/
def split_text_paragraph (text : Str) : List Str :=
  (text.splitOn '\n').filter (fun s => !(stripList s).isEmpty)

/-- Embeds `chunk_text`'s error taxonomy together with the taxonomy of
the external collaborators (spec section 7).  External calls may fail
with any of these values; the repository itself raises
`FileNotFoundError` and the two `ValueError`s. -/
inductive PyErr where
  | fileNotFound (path : Str)
  | unsupportedFormat (ext : Str)
  | unsupportedStrategy (strategy : Str)
  | extractionFailure (msg : Str)
  | embeddingFailure (msg : Str)
  | storageFailure (msg : Str)
  | connectionFailure (msg : Str)
deriving DecidableEq

/-- Embedding vectors.  Float values are carried as opaque data (never
computed on), so any carrier works; the external service chooses them. -/
abbrev Vec := List Int

/-- One persisted row of `document_embeddings` (an `IngestionRecord`). -/
structure Row where
  chunk_text : Str
  embedding : Vec
  filename : Str
  strategy : Str
deriving DecidableEq

/-- The external collaborators of the pipeline: file-system existence
check, the PDF/DOCX extraction libraries, the database connection and
transaction primitives, the Gemini embedding call and the SQL insert.
`embed` and `insert` receive the index of the call within the run so an
environment can make an arbitrary one of them fail. -/
structure Env where
  exists_file : Str → Bool
  extract_pdf : Str → Except PyErr Str
  extract_docx : Str → Except PyErr Str
  connect : Except PyErr Unit
  embed : Nat → Str → Except PyErr Vec
  insert : Nat → Row → Except PyErr Unit
  commit : Except PyErr Unit

/-- Embeds `Path(file_path).name`: the final path component. -/
def pathName (p : Str) : Str :=
  (p.reverse.takeWhile (fun c => !(c = '/'))).reverse

/-- Embeds `Path(file_path).suffix` (CPython: `i = name.rfind('.')`,
return `name[i:]` when `0 < i < len(name) - 1`, else the empty string). -/
def pathSuffix (p : Str) : Str :=
  let name := pathName p
  if '.' ∈ name then
    let i := name.length - 1 - name.reverse.indexOf '.'
    if 0 < i ∧ i < name.length - 1 then name.drop i else []
  else []

/-- Embeds `Path(file_path).suffix.lower()`. -/
def fileExtOf (p : Str) : Str := (pathSuffix p).map Char.toLower

/-- Embeds `extract_text`: dispatch on the lower-cased suffix; `.pdf`
and `.docx` go to the external extraction libraries, anything else
raises `ValueError("Unsupported file format: ...")`. -/
def extract_text (env : Env) (file_path : Str) : Except PyErr Str :=
  let file_ext := fileExtOf file_path
  if file_ext = ".pdf".toList then env.extract_pdf file_path
  else if file_ext = ".docx".toList then env.extract_docx file_path
  else .error (.unsupportedFormat file_ext)

/-- Embeds `chunk_text`: dispatch on the strategy name; an unrecognized
name raises `ValueError("Unsupported chunking strategy: ...")`.  The
defaults `chunk_size=500, overlap=50` of `split_text_fixed` are written
out explicitly. -/
def chunk_text (text strategy : Str) : Except PyErr (List Str) :=
  if strategy = "fixed".toList then .ok (split_text_fixed text 500 50)
  else if strategy = "sentence".toList then .ok (split_text_sentence text)
  else if strategy = "paragraph".toList then .ok (split_text_paragraph text)
  else .error (.unsupportedStrategy strategy)

deriving instance DecidableEq for Except

/-- Outcome of the per-document loop: its result, the final
`chunk_counter`, the number of embedding calls made, and the rows
written inside the still-open transaction. -/
structure LoopOut where
  res : Except PyErr Unit
  counter : Nat
  embeds : Nat
  pending : List Row
deriving DecidableEq

/-- The inner `for safe_chunk in safe_chunks` loop: embed the sub-chunk,
insert the row, increment the counter; stop at the first failure. -/
def loopSafe (env : Env) (filename strategy : Str) :
    List Str → Nat → Nat → List Row → LoopOut
  | [], counter, embeds, pending => ⟨.ok (), counter, embeds, pending⟩
  | sc :: rest, counter, embeds, pending =>
    match env.embed embeds sc with
    | .error e => ⟨.error e, counter, embeds + 1, pending⟩
    | .ok v =>
      match env.insert counter ⟨sc, v, filename, strategy⟩ with
      | .error e => ⟨.error e, counter, embeds + 1, pending⟩
      | .ok _ =>
        loopSafe env filename strategy rest (counter + 1) (embeds + 1)
          (pending ++ [⟨sc, v, filename, strategy⟩])

/-- The outer `for chunk in chunks` loop: bound each chunk with
`enforce_max_length(chunk)` (default `MAX_CHARS`), then run the inner
loop; stop at the first failure. -/
def loopChunks (env : Env) (filename strategy : Str) :
    List Str → Nat → Nat → List Row → LoopOut
  | [], counter, embeds, pending => ⟨.ok (), counter, embeds, pending⟩
  | c :: rest, counter, embeds, pending =>
    let out := loopSafe env filename strategy (enforce_max_length c MAX_CHARS)
      counter embeds pending
    match out.res with
    | .error _ => out
    | .ok _ => loopChunks env filename strategy rest out.counter out.embeds out.pending

/-- Observable outcome of one `process_document` run.  `result` is the
Python return value (`None` on success, hence `Option Nat := none`) or
the propagated exception; `rows` are the rows visible in the store after
the run (the transaction's writes if and only if it committed). -/
structure PipeResult where
  result : Except PyErr (Option Nat)
  conn_opened : Bool
  conn_closed : Bool
  committed : Bool
  rolledBack : Bool
  embed_calls : Nat
  rows : List Row
deriving DecidableEq

/-- Embeds `process_document`: existence check, extraction, chunking,
per-chunk normalization, connection, then the transactional loop with
`commit` on success and `rollback` + re-raise on any failure, the
connection closed on every path out of the `try` (the `finally`). -/
def process_document (env : Env) (file_path strategy : Str) : PipeResult :=
  if env.exists_file file_path = false then
    ⟨.error (.fileNotFound file_path), false, false, false, false, 0, []⟩
  else
    let filename := pathName file_path
    match extract_text env file_path with
    | .error e => ⟨.error e, false, false, false, false, 0, []⟩
    | .ok text =>
      match chunk_text text strategy with
      | .error e => ⟨.error e, false, false, false, false, 0, []⟩
      | .ok rawChunks =>
        let chunks := rawChunks.map clean_chunk
        match env.connect with
        | .error e => ⟨.error e, false, false, false, false, 0, []⟩
        | .ok _ =>
          let out := loopChunks env filename strategy chunks 0 0 []
          match out.res with
          | .error e => ⟨.error e, true, true, false, true, out.embeds, []⟩
          | .ok _ =>
            match env.commit with
            | .error e => ⟨.error e, true, true, false, true, out.embeds, []⟩
            | .ok _ => ⟨.ok none, true, true, true, false, out.embeds, out.pending⟩

/-- Total number of bounded sub-chunks the loop derives from a chunk
list (the record count of a fully successful run). -/
def subChunkCount (chunks : List Str) : Nat :=
  (chunks.map (fun c => (enforce_max_length c MAX_CHARS).length)).sum

example : split_text_sentence "A. B! C?".toList =
    ["A.".toList, "B!".toList, "C?".toList] := by decide

example : split_text_paragraph "a\n\nb\n".toList = ["a".toList, "b".toList] := by
  decide

example : clean_chunk "  a \t b\n\n c ".toList = "a b\n c".toList := by decide

example : split_text_fixed "ab cd".toList 3 1 =
    ["ab ".toList, " cd".toList, "d".toList] := by decide

/-! ### Lemmas about `enforce_max_length` -/

theorem enforce_nil (m : Nat) : enforce_max_length [] m = [] := by
  rcases Nat.eq_zero_or_pos m with rfl | hm
  · simp [enforce_max_length, pyRange, pyRangeLen]
  · simp [enforce_max_length, pyRange, pyRangeLen, Nat.pos_iff_ne_zero.mp hm,
      Nat.div_eq_of_lt (Nat.sub_lt hm Nat.one_pos)]

theorem pyRangeLen_pos {stop step : Nat} (hstep : 0 < step) (hstop : 0 < stop) :
    pyRangeLen stop step = pyRangeLen (stop - step) step + 1 := by
  have hstep' : step ≠ 0 := Nat.pos_iff_ne_zero.mp hstep
  unfold pyRangeLen
  simp only [hstep', if_false]
  have h1 : stop + step - 1 = (stop - 1) + step := by omega
  rw [h1, Nat.add_div_right _ hstep]
  rcases Nat.lt_or_ge stop step with hlt | hge
  · have h2 : stop - step = 0 := by omega
    rw [h2]
    have h3 : (stop - 1) / step = 0 := Nat.div_eq_of_lt (by omega)
    have h4 : (0 + step - 1) / step = 0 := Nat.div_eq_of_lt (by omega)
    omega
  · have h2 : stop - step + step - 1 = stop - 1 := by omega
    rw [h2]

theorem enforce_cons {m : Nat} (hm : 0 < m) {t : Str} (ht : t ≠ []) :
    enforce_max_length t m = t.take m :: enforce_max_length (t.drop m) m := by
  have hlen : 0 < t.length := List.length_pos.mpr ht
  unfold enforce_max_length pyRange
  rw [List.length_drop, pyRangeLen_pos hm hlen, List.range_succ_eq_map]
  simp only [List.map_cons, List.map_map]
  congr 1
  · simp [pySlice]
  · apply List.map_congr_left
    intro i _
    simp only [Function.comp_apply, pySlice, Nat.succ_eq_add_one]
    have h1 : (i + 1) * m = m + i * m := by ring
    rw [h1, ← List.drop_drop]
    congr 1
    omega

theorem enforce_flatten {m : Nat} (hm : 0 < m) :
    ∀ t : Str, (enforce_max_length t m).flatten = t
  | t => by
    rcases eq_or_ne t [] with rfl | ht
    · rw [enforce_nil]; rfl
    · have hlen : 0 < t.length := List.length_pos.mpr ht
      have ih := enforce_flatten hm (t.drop m)
      rw [enforce_cons hm ht, List.flatten_cons, ih, List.take_append_drop]
termination_by t => t.length
decreasing_by simp only [List.length_drop]; exact Nat.sub_lt hlen hm

theorem enforce_mem {m : Nat} (hm : 0 < m) :
    ∀ t : Str, ∀ s ∈ enforce_max_length t m, s.length ≤ m ∧ s ≠ []
  | t => by
    rcases eq_or_ne t [] with rfl | ht
    · rw [enforce_nil]; intro s hs; cases hs
    · have hlen : 0 < t.length := List.length_pos.mpr ht
      have ih := enforce_mem hm (t.drop m)
      rw [enforce_cons hm ht]
      intro s hs
      rcases List.mem_cons.mp hs with rfl | hs'
      · refine ⟨by simp [List.length_take], ?_⟩
        simp only [ne_eq, List.take_eq_nil_iff, not_or]
        exact ⟨Nat.pos_iff_ne_zero.mp hm, ht⟩
      · exact ih s hs'
termination_by t => t.length
decreasing_by simp only [List.length_drop]; exact Nat.sub_lt hlen hm

theorem enforce_singleton {m : Nat} {t : Str} (hm : 0 < m) (h0 : 0 < t.length)
    (hle : t.length ≤ m) : enforce_max_length t m = [t] := by
  have ht : t ≠ [] := List.length_pos.mp h0
  rw [enforce_cons hm ht, List.take_of_length_le hle,
    List.drop_eq_nil_of_le hle, enforce_nil]

/-! ### Lemmas about `split_text_fixed` -/

theorem pyRangeLen_zero (step : Nat) : pyRangeLen 0 step = 0 := by
  unfold pyRangeLen
  rcases Nat.eq_zero_or_pos step with rfl | hs
  · rfl
  · rw [if_neg (Nat.pos_iff_ne_zero.mp hs)]
    exact Nat.div_eq_of_lt (by omega)

theorem split_loop_mem {text : Str} {chunk_size overlap : Nat} :
    ∀ (fuel start : Nat), ∀ c ∈ split_text_fixed_loop text chunk_size overlap fuel start,
      (stripList c).isEmpty = false ∧ c.length ≤ chunk_size := by
  intro fuel
  induction fuel with
  | zero => intro start c hc; simp [split_text_fixed_loop] at hc
  | succ n ih =>
    intro start c hc
    by_cases hlt : start < text.length
    · simp only [split_text_fixed_loop, hlt, if_true] at hc
      by_cases he : (stripList (pySlice text start (start + chunk_size))).isEmpty
      · simp only [he, if_true] at hc
        exact ih _ c hc
      · simp only [he, if_false] at hc
        rcases List.mem_cons.mp hc with rfl | hc2
        · refine ⟨Bool.eq_false_iff.mpr he, ?_⟩
          simp only [pySlice, List.length_take, List.length_drop]
          omega
        · exact ih _ c hc2
    · simp only [split_text_fixed_loop, hlt, if_false] at hc
      cases hc

theorem split_loop_eq {text : Str} {chunk_size overlap : Nat}
    (h : overlap < chunk_size) :
    ∀ (fuel start : Nat),
      text.length ≤ start + fuel * (chunk_size - overlap) →
      split_text_fixed_loop text chunk_size overlap fuel start =
        ((List.range (pyRangeLen (text.length - start) (chunk_size - overlap))).map
            (fun i => pySlice text (start + i * (chunk_size - overlap))
              (start + i * (chunk_size - overlap) + chunk_size))).filter
          (fun c => !(stripList c).isEmpty) := by
  have hstep : 0 < chunk_size - overlap := by omega
  intro fuel
  induction fuel with
  | zero =>
    intro start hle
    have h0 : text.length - start = 0 := by omega
    rw [h0, pyRangeLen_zero]
    rfl
  | succ n ih =>
    intro start hle
    by_cases hlt : start < text.length
    · have hpos : 0 < text.length - start := by omega
      have hrec := ih (start + (chunk_size - overlap)) (by
        have : start + (n + 1) * (chunk_size - overlap) =
            start + (chunk_size - overlap) + n * (chunk_size - overlap) := by ring
        omega)
      have hsub : text.length - (start + (chunk_size - overlap)) =
          text.length - start - (chunk_size - overlap) := by omega
      rw [hsub] at hrec
      simp only [split_text_fixed_loop, hlt, if_true]
      rw [pyRangeLen_pos hstep hpos, List.range_succ_eq_map]
      simp only [List.map_cons, Nat.zero_mul, Nat.add_zero, List.map_map]
      have hmap : ∀ i ∈ List.range (pyRangeLen (text.length - start - (chunk_size - overlap))
            (chunk_size - overlap)),
          ((fun i => pySlice text (start + i * (chunk_size - overlap))
              (start + i * (chunk_size - overlap) + chunk_size)) ∘ Nat.succ) i =
            pySlice text (start + (chunk_size - overlap) + i * (chunk_size - overlap))
              (start + (chunk_size - overlap) + i * (chunk_size - overlap) + chunk_size) := by
        intro i _
        simp only [Function.comp_apply, Nat.succ_eq_add_one]
        have hA : start + (i + 1) * (chunk_size - overlap) =
            start + (chunk_size - overlap) + i * (chunk_size - overlap) := by ring
        rw [hA]
      rw [List.map_congr_left hmap, List.filter_cons, ← hrec]
      by_cases he : (stripList (pySlice text start (start + chunk_size))).isEmpty
      · simp [he]
      · simp [he]
    · have h0 : text.length - start = 0 := by omega
      simp only [split_text_fixed_loop, hlt, if_false]
      rw [h0, pyRangeLen_zero]
      rfl

/-! ### Lemmas about `collapseAux`, `stripList` and `clean_chunk` -/

/-- Two adjacent characters are not both in the class `p`; chained over
a string this says every maximal `p`-run has length one. -/
def sepBy (p : Char → Bool) (a b : Char) : Prop := p a = false ∨ p b = false

theorem sepBy_symm {p : Char → Bool} : ∀ a b : Char, sepBy p a b → sepBy p b a :=
  fun _ _ h => h.symm

theorem collapseAux_length {p : Char → Bool} {rep : Char} :
    ∀ (l : Str) (b : Bool), (collapseAux p rep b l).length ≤ l.length := by
  intro l
  induction l with
  | nil => intro b; simp [collapseAux]
  | cons a cs ih =>
    intro b
    by_cases ha : p a
    · cases b with
      | true =>
        simp only [collapseAux, ha, if_true]
        exact Nat.le_succ_of_le (ih true)
      | false =>
        simp [collapseAux, ha]
        exact ih true
    · simp [collapseAux, ha]
      exact ih false

theorem collapseAux_mem {p : Char → Bool} {rep : Char} :
    ∀ {l : Str} {b : Bool} {c : Char}, c ∈ collapseAux p rep b l → c ∈ l ∨ c = rep := by
  intro l
  induction l with
  | nil => intro b c h; simp [collapseAux] at h
  | cons a cs ih =>
    intro b c h
    by_cases ha : p a
    · have h' : c ∈ collapseAux p rep true cs ∨ c = rep := by
        cases b with
        | true =>
          simp only [collapseAux, ha, if_true] at h
          exact Or.inl h
        | false =>
          simp [collapseAux, ha] at h
          rcases h with rfl | h
          · exact Or.inr rfl
          · exact Or.inl h
      rcases h' with h' | rfl
      · rcases ih h' with h'' | h''
        · exact Or.inl (List.mem_cons_of_mem a h'')
        · exact Or.inr h''
      · exact Or.inr rfl
    · simp [collapseAux, ha] at h
      rcases h with rfl | h'
      · exact Or.inl (List.mem_cons_self _ _)
      · rcases ih h' with h'' | h''
        · exact Or.inl (List.mem_cons_of_mem a h'')
        · exact Or.inr h''

theorem collapseAux_mem_of {p : Char → Bool} {rep : Char} :
    ∀ {l : Str} (b : Bool) {c : Char}, c ∈ l → p c = false →
      c ∈ collapseAux p rep b l := by
  intro l
  induction l with
  | nil => intro b c h; simp at h
  | cons a cs ih =>
    intro b c h hc
    rcases List.mem_cons.mp h with rfl | h'
    · simp [collapseAux, hc]
    · by_cases ha : p a
      · cases b with
        | true =>
          simp only [collapseAux, ha, if_true]
          exact ih true h' hc
        | false =>
          simp [collapseAux, ha]
          exact Or.inr (ih true h' hc)
      · simp [collapseAux, ha]
        exact Or.inr (ih false h' hc)

theorem collapseAux_head_true {p : Char → Bool} {rep : Char} :
    ∀ (l : Str), ∀ h ∈ (collapseAux p rep true l).head?, p h = false := by
  intro l
  induction l with
  | nil => intro h hh; simp [collapseAux] at hh
  | cons a cs ih =>
    intro h hh
    by_cases ha : p a
    · simp only [collapseAux, ha, if_true] at hh
      exact ih h hh
    · simp [collapseAux, ha] at hh
      rw [← hh]
      exact Bool.eq_false_iff.mpr ha

theorem collapseAux_chain {p : Char → Bool} {rep : Char} :
    ∀ (l : Str) (b : Bool), List.Chain' (sepBy p) (collapseAux p rep b l) := by
  intro l
  induction l with
  | nil => intro b; simp [collapseAux]
  | cons a cs ih =>
    intro b
    by_cases ha : p a
    · cases b with
      | true =>
        simp only [collapseAux, ha, if_true]
        exact ih true
      | false =>
        simp only [collapseAux, ha, if_true, if_false]
        exact List.chain'_cons'.mpr
          ⟨fun y hy => Or.inr (collapseAux_head_true cs y hy), ih true⟩
    · simp only [collapseAux, ha, if_false]
      exact List.chain'_cons'.mpr
        ⟨fun y _ => Or.inl (Bool.eq_false_iff.mpr ha), ih false⟩

theorem collapseAux_allRep {p : Char → Bool} {rep : Char} :
    ∀ (l : Str) (b : Bool), ∀ c ∈ collapseAux p rep b l, p c = true → c = rep := by
  intro l
  induction l with
  | nil => intro b c hc; simp [collapseAux] at hc
  | cons a cs ih =>
    intro b c hc hpc
    by_cases ha : p a
    · have h2 : c ∈ collapseAux p rep true cs ∨ c = rep := by
        cases b with
        | true =>
          simp only [collapseAux, ha, if_true] at hc
          exact Or.inl hc
        | false =>
          simp [collapseAux, ha] at hc
          rcases hc with rfl | hc
          · exact Or.inr rfl
          · exact Or.inl hc
      rcases h2 with h2 | rfl
      · exact ih true c h2 hpc
      · rfl
    · simp [collapseAux, ha] at hc
      rcases hc with rfl | hc2
      · exact absurd hpc (by simp [ha])
      · exact ih false c hc2 hpc

theorem collapseAux_id {p : Char → Bool} {rep : Char} :
    ∀ (l : Str) (b : Bool), (∀ c ∈ l, p c = true → c = rep) →
      List.Chain' (sepBy p) l → (b = true → ∀ h ∈ l.head?, p h = false) →
      collapseAux p rep b l = l := by
  intro l
  induction l with
  | nil => intro b _ _ _; simp [collapseAux]
  | cons a cs ih =>
    intro b hall hch hb
    by_cases ha : p a
    · cases b with
      | true =>
        have h2 := hb rfl a (by simp)
        rw [h2] at ha
        simp at ha
      | false =>
        simp only [collapseAux, ha, if_true, if_false]
        have hrep_a : a = rep := hall a (List.mem_cons_self _ _) ha
        have hcs : collapseAux p rep true cs = cs := by
          apply ih true (fun c hc => hall c (List.mem_cons_of_mem a hc))
            (List.chain'_cons'.mp hch).2
          intro _ h hh
          rcases (List.chain'_cons'.mp hch).1 h hh with h2 | h2
          · rw [ha] at h2; simp at h2
          · exact h2
        rw [hcs, hrep_a]
        rfl
    · simp only [collapseAux, ha, if_false]
      have hcs : collapseAux p rep false cs = cs := by
        apply ih false (fun c hc => hall c (List.mem_cons_of_mem a hc))
          (List.chain'_cons'.mp hch).2
        intro h; exact absurd h (by simp)
      rw [hcs]
      rfl

theorem collapseAux_head_false {q : Char → Bool} {rq : Char} :
    ∀ (l : Str) (h : Char), (collapseAux q rq false l).head? = some h →
      h = rq ∨ l.head? = some h := by
  intro l h hh
  cases l with
  | nil => simp [collapseAux] at hh
  | cons a cs =>
    by_cases ha : q a
    · simp [collapseAux, ha] at hh
      exact Or.inl hh.symm
    · simp [collapseAux, ha] at hh
      exact Or.inr (by simp [← hh])

theorem collapseAux_chain_pres {p q : Char → Bool} {rq : Char} (hq : p rq = false) :
    ∀ (l : Str) (b : Bool), List.Chain' (sepBy p) l →
      List.Chain' (sepBy p) (collapseAux q rq b l) := by
  intro l
  induction l with
  | nil => intro b _; simp [collapseAux]
  | cons a cs ih =>
    intro b hch
    have hcs := (List.chain'_cons'.mp hch).2
    by_cases ha : q a
    · cases b with
      | true =>
        simp only [collapseAux, ha, if_true]
        exact ih true hcs
      | false =>
        simp only [collapseAux, ha, if_true, if_false]
        exact List.chain'_cons'.mpr ⟨fun y _ => Or.inl hq, ih true hcs⟩
    · simp only [collapseAux, ha, if_false]
      refine List.chain'_cons'.mpr ⟨?_, ih false hcs⟩
      intro y hy
      rcases collapseAux_head_false cs y hy with rfl | hy2
      · exact Or.inr hq
      · exact (List.chain'_cons'.mp hch).1 y hy2

theorem dropWhile_chain {P : Char → Char → Prop} {p : Char → Bool} {l : Str}
    (h : List.Chain' P l) : List.Chain' P (l.dropWhile p) := by
  have h2 : List.Chain' P (l.takeWhile p ++ l.dropWhile p) := by
    rw [List.takeWhile_append_dropWhile]
    exact h
  exact (List.chain'_append.mp h2).2.1

theorem chain_reverse_of_symm {P : Char → Char → Prop}
    (hsymm : ∀ a b : Char, P a b → P b a) {l : Str} (h : List.Chain' P l) :
    List.Chain' P l.reverse := by
  rw [List.chain'_reverse]
  exact h.imp (fun a b hab => hsymm a b hab)

theorem strip_chain {P : Char → Char → Prop} (hsymm : ∀ a b : Char, P a b → P b a)
    {l : Str} (h : List.Chain' P l) : List.Chain' P (stripList l) :=
  chain_reverse_of_symm hsymm
    (dropWhile_chain (chain_reverse_of_symm hsymm (dropWhile_chain h)))

theorem dropWhile_subset {p : Char → Bool} {l : Str} {x : Char}
    (h : x ∈ l.dropWhile p) : x ∈ l := by
  rw [← List.takeWhile_append_dropWhile p l]
  exact List.mem_append.mpr (Or.inr h)

theorem mem_dropWhile_of {p : Char → Bool} {l : Str} {x : Char}
    (hx : x ∈ l) (hp : p x = false) : x ∈ l.dropWhile p := by
  induction l with
  | nil => simp at hx
  | cons a cs ih =>
    by_cases ha : p a
    · rcases List.mem_cons.mp hx with rfl | h2
      · rw [ha] at hp; cases hp
      · simp only [List.dropWhile_cons, ha, if_true]
        exact ih h2
    · simp only [List.dropWhile_cons, ha, if_false]
      exact hx

theorem strip_subset {l : Str} {x : Char} (h : x ∈ stripList l) : x ∈ l := by
  unfold stripList at h
  rw [List.mem_reverse] at h
  have h2 := dropWhile_subset h
  rw [List.mem_reverse] at h2
  exact dropWhile_subset h2

theorem strip_mem_of {l : Str} {x : Char} (hx : x ∈ l) (hp : isPyWs x = false) :
    x ∈ stripList l := by
  unfold stripList
  rw [List.mem_reverse]
  exact mem_dropWhile_of (List.mem_reverse.mpr (mem_dropWhile_of hx hp)) hp

theorem head_dropWhile {p : Char → Bool} {l : Str} :
    ∀ h ∈ (l.dropWhile p).head?, p h = false := by
  induction l with
  | nil => intro h hh; simp at hh
  | cons a cs ih =>
    intro h hh
    by_cases ha : p a
    · simp only [List.dropWhile_cons, ha, if_true] at hh
      exact ih h hh
    · have h3 : List.dropWhile p (a :: cs) = a :: cs := by
        simp [List.dropWhile_cons, ha]
      rw [h3] at hh
      simp only [List.head?_cons, Option.mem_def, Option.some.injEq] at hh
      subst hh
      exact Bool.eq_false_iff.mpr ha

theorem dropWhile_eq_self_of_head {p : Char → Bool} {l : Str}
    (hh : ∀ h ∈ l.head?, p h = false) : l.dropWhile p = l := by
  cases l with
  | nil => rfl
  | cons a cs =>
    have h2 := hh a (by simp)
    simp [List.dropWhile_cons, h2]

theorem strip_eq_self {l : Str} (hh : ∀ h ∈ l.head?, isPyWs h = false)
    (hl : ∀ h ∈ l.getLast?, isPyWs h = false) : stripList l = l := by
  unfold stripList
  rw [dropWhile_eq_self_of_head hh]
  rw [dropWhile_eq_self_of_head (by simpa [List.head?_reverse] using hl)]
  exact List.reverse_reverse l

theorem strip_getLast {l : Str} : ∀ h ∈ (stripList l).getLast?, isPyWs h = false := by
  intro h hh
  unfold stripList at hh
  rw [List.getLast?_reverse] at hh
  exact head_dropWhile h hh

theorem strip_head {l : Str} : ∀ h ∈ (stripList l).head?, isPyWs h = false := by
  intro h hh
  unfold stripList at hh
  rw [List.head?_reverse] at hh
  rcases hX : (l.dropWhile isPyWs).reverse.dropWhile isPyWs with _ | ⟨a, as⟩
  · rw [hX] at hh
    simp at hh
  · have hne : (l.dropWhile isPyWs).reverse.dropWhile isPyWs ≠ [] := by
      rw [hX]; simp
    have h1 : ((l.dropWhile isPyWs).reverse).getLast? =
        ((l.dropWhile isPyWs).reverse.dropWhile isPyWs).getLast? := by
      conv_lhs => rw [← List.takeWhile_append_dropWhile isPyWs (l.dropWhile isPyWs).reverse]
      exact List.getLast?_append_of_ne_nil _ hne
    rw [← h1, List.getLast?_reverse] at hh
    exact head_dropWhile h hh

theorem strip_idem {l : Str} : stripList (stripList l) = stripList l :=
  strip_eq_self strip_head strip_getLast

theorem strip_length {l : Str} : (stripList l).length ≤ l.length := by
  have h1 : ∀ m : Str, (m.dropWhile isPyWs).length ≤ m.length := by
    intro m
    conv_rhs => rw [← List.takeWhile_append_dropWhile isPyWs m]
    rw [List.length_append]
    exact Nat.le_add_left _ _
  unfold stripList
  rw [List.length_reverse]
  exact le_trans (h1 _) (by rw [List.length_reverse]; exact h1 l)

theorem strip_eq_nil_of_all {l : Str} (h : ∀ c ∈ l, isPyWs c = true) :
    stripList l = [] := by
  unfold stripList
  have h1 : l.dropWhile isPyWs = [] := List.dropWhile_eq_nil_iff.mpr (fun x hx => h x hx)
  rw [h1]
  rfl

theorem exists_nonws_of_strip_ne_nil {l : Str} (h : stripList l ≠ []) :
    ∃ x ∈ l, isPyWs x = false := by
  by_contra hc
  push_neg at hc
  apply h
  apply strip_eq_nil_of_all
  intro c hcl
  have h2 := hc c hcl
  simpa using h2

theorem strip_ne_nil_of_mem {l : Str} {x : Char} (hx : x ∈ l) (hp : isPyWs x = false) :
    stripList l ≠ [] :=
  List.ne_nil_of_mem (strip_mem_of hx hp)

theorem spTab_ws {c : Char} (h : isSpTab c = true) : isPyWs c = true := by
  simp only [isSpTab, Bool.or_eq_true, decide_eq_true_eq] at h
  rcases h with rfl | rfl <;> decide

theorem nl_ws {c : Char} (h : isNlChar c = true) : isPyWs c = true := by
  simp only [isNlChar, decide_eq_true_eq] at h
  subst h
  decide

theorem clean_chunk_length (l : Str) : (clean_chunk l).length ≤ l.length := by
  unfold clean_chunk collapseNewlines collapseSpaces
  exact le_trans strip_length (le_trans (collapseAux_length _ _) (collapseAux_length _ _))

theorem clean_chunk_mem_of {l : Str} {x : Char} (hx : x ∈ l) (hp : isPyWs x = false) :
    x ∈ clean_chunk l := by
  have h1 : isSpTab x = false := by
    cases h2 : isSpTab x with
    | false => rfl
    | true => have h3 := spTab_ws h2; rw [hp] at h3; cases h3
  have h4 : isNlChar x = false := by
    cases h2 : isNlChar x with
    | false => rfl
    | true => have h3 := nl_ws h2; rw [hp] at h3; cases h3
  unfold clean_chunk collapseNewlines collapseSpaces
  exact strip_mem_of (collapseAux_mem_of false (collapseAux_mem_of false hx h1) h4) hp

theorem clean_chunk_ne_nil {l : Str} (h : ∃ x ∈ l, isPyWs x = false) :
    clean_chunk l ≠ [] := by
  obtain ⟨x, hx, hp⟩ := h
  exact List.ne_nil_of_mem (clean_chunk_mem_of hx hp)

theorem clean_chunk_idem (l : Str) : clean_chunk (clean_chunk l) = clean_chunk l := by
  have hnlsp : isSpTab '\n' = false := by decide
  have hchsp_u : List.Chain' (sepBy isSpTab) (collapseSpaces l) := collapseAux_chain _ _
  have hall_u : ∀ c ∈ collapseSpaces l, isSpTab c = true → c = ' ' :=
    collapseAux_allRep _ _
  have hchsp_v : List.Chain' (sepBy isSpTab) (collapseNewlines (collapseSpaces l)) :=
    collapseAux_chain_pres hnlsp _ _ hchsp_u
  have hall_v : ∀ c ∈ collapseNewlines (collapseSpaces l), isSpTab c = true → c = ' ' := by
    intro c hc hpc
    rcases collapseAux_mem hc with hcu | rfl
    · exact hall_u c hcu hpc
    · exact absurd hpc (by decide)
  have hchnl_v : List.Chain' (sepBy isNlChar) (collapseNewlines (collapseSpaces l)) :=
    collapseAux_chain _ _
  have hchsp_w : List.Chain' (sepBy isSpTab) (clean_chunk l) :=
    strip_chain sepBy_symm hchsp_v
  have hchnl_w : List.Chain' (sepBy isNlChar) (clean_chunk l) :=
    strip_chain sepBy_symm hchnl_v
  have hall_w : ∀ c ∈ clean_chunk l, isSpTab c = true → c = ' ' :=
    fun c hc => hall_v c (strip_subset hc)
  have e1 : collapseSpaces (clean_chunk l) = clean_chunk l :=
    collapseAux_id _ false hall_w hchsp_w (by simp)
  have e2 : collapseNewlines (clean_chunk l) = clean_chunk l :=
    collapseAux_id _ false (fun c _ hc => by simpa [isNlChar] using hc) hchnl_w (by simp)
  have e3 : stripList (clean_chunk l) = clean_chunk l := strip_idem
  calc clean_chunk (clean_chunk l)
      = stripList (collapseNewlines (collapseSpaces (clean_chunk l))) := rfl
    _ = stripList (collapseNewlines (clean_chunk l)) := by rw [e1]
    _ = stripList (clean_chunk l) := by rw [e2]
    _ = clean_chunk l := e3

/-! ### Lemmas about the transactional loop -/

theorem loopSafe_mem {env : Env} {fn st : Str} :
    ∀ (safe : List Str) (counter embeds : Nat) (pending : List Row),
      ∀ r ∈ (loopSafe env fn st safe counter embeds pending).pending,
        r ∈ pending ∨ r.chunk_text ∈ safe := by
  intro safe
  induction safe with
  | nil =>
    intro counter embeds pending r hr
    simp only [loopSafe] at hr
    exact Or.inl hr
  | cons sc rest ih =>
    intro counter embeds pending r hr
    cases hemb : env.embed embeds sc with
    | error e =>
      simp only [loopSafe, hemb] at hr
      exact Or.inl hr
    | ok v =>
      cases hins : env.insert counter ⟨sc, v, fn, st⟩ with
      | error e =>
        simp only [loopSafe, hemb, hins] at hr
        exact Or.inl hr
      | ok u =>
        simp only [loopSafe, hemb, hins] at hr
        rcases ih _ _ _ r hr with h1 | h1
        · rcases List.mem_append.mp h1 with h2 | h2
          · exact Or.inl h2
          · simp only [List.mem_singleton] at h2
            subst h2
            exact Or.inr (List.mem_cons_self _ _)
        · exact Or.inr (List.mem_cons_of_mem _ h1)

theorem loopSafe_ok {env : Env} {fn st : Str} :
    ∀ (safe : List Str) (counter embeds : Nat) (pending : List Row),
      (loopSafe env fn st safe counter embeds pending).res = .ok () →
      (loopSafe env fn st safe counter embeds pending).pending.length =
          pending.length + safe.length ∧
        (loopSafe env fn st safe counter embeds pending).counter =
          counter + safe.length := by
  intro safe
  induction safe with
  | nil =>
    intro counter embeds pending _
    simp [loopSafe]
  | cons sc rest ih =>
    intro counter embeds pending hok
    cases hemb : env.embed embeds sc with
    | error e => simp [loopSafe, hemb] at hok
    | ok v =>
      cases hins : env.insert counter ⟨sc, v, fn, st⟩ with
      | error e => simp [loopSafe, hemb, hins] at hok
      | ok u =>
        simp only [loopSafe, hemb, hins] at hok ⊢
        have h2 := ih (counter + 1) (embeds + 1) (pending ++ [⟨sc, v, fn, st⟩]) hok
        simp [List.length_append] at h2 ⊢
        omega

theorem loopSafe_err {env : Env} {fn st : Str} :
    ∀ (safe : List Str) (counter embeds : Nat) (pending : List Row) (e : PyErr),
      (loopSafe env fn st safe counter embeds pending).res = .error e →
      (∃ k s, env.embed k s = .error e) ∨ (∃ k row, env.insert k row = .error e) := by
  intro safe
  induction safe with
  | nil =>
    intro counter embeds pending e h
    simp [loopSafe] at h
  | cons sc rest ih =>
    intro counter embeds pending e h
    cases hemb : env.embed embeds sc with
    | error e2 =>
      simp only [loopSafe, hemb] at h
      cases h
      exact Or.inl ⟨embeds, sc, hemb⟩
    | ok v =>
      cases hins : env.insert counter ⟨sc, v, fn, st⟩ with
      | error e2 =>
        simp only [loopSafe, hemb, hins] at h
        cases h
        exact Or.inr ⟨counter, ⟨sc, v, fn, st⟩, hins⟩
      | ok u =>
        simp only [loopSafe, hemb, hins] at h
        exact ih _ _ _ _ h

theorem loopChunks_mem {env : Env} {fn st : Str} :
    ∀ (chunks : List Str) (counter embeds : Nat) (pending : List Row),
      ∀ r ∈ (loopChunks env fn st chunks counter embeds pending).pending,
        r ∈ pending ∨ ∃ c ∈ chunks, r.chunk_text ∈ enforce_max_length c MAX_CHARS := by
  intro chunks
  induction chunks with
  | nil =>
    intro counter embeds pending r hr
    simp only [loopChunks] at hr
    exact Or.inl hr
  | cons c rest ih =>
    intro counter embeds pending r hr
    cases hres : (loopSafe env fn st (enforce_max_length c MAX_CHARS)
        counter embeds pending).res with
    | error e =>
      simp only [loopChunks, hres] at hr
      rcases loopSafe_mem _ _ _ _ r hr with h1 | h1
      · exact Or.inl h1
      · exact Or.inr ⟨c, List.mem_cons_self _ _, h1⟩
    | ok u =>
      simp only [loopChunks, hres] at hr
      rcases ih _ _ _ r hr with h1 | h1
      · rcases loopSafe_mem _ _ _ _ r h1 with h2 | h2
        · exact Or.inl h2
        · exact Or.inr ⟨c, List.mem_cons_self _ _, h2⟩
      · obtain ⟨c2, hc2, hmem⟩ := h1
        exact Or.inr ⟨c2, List.mem_cons_of_mem _ hc2, hmem⟩

theorem loopChunks_ok {env : Env} {fn st : Str} :
    ∀ (chunks : List Str) (counter embeds : Nat) (pending : List Row),
      (loopChunks env fn st chunks counter embeds pending).res = .ok () →
      (loopChunks env fn st chunks counter embeds pending).pending.length =
        pending.length + subChunkCount chunks := by
  intro chunks
  induction chunks with
  | nil =>
    intro counter embeds pending _
    simp [loopChunks, subChunkCount]
  | cons c rest ih =>
    intro counter embeds pending hok
    cases hres : (loopSafe env fn st (enforce_max_length c MAX_CHARS)
        counter embeds pending).res with
    | error e =>
      simp only [loopChunks, hres] at hok
      cases hok
    | ok u =>
      cases u
      simp only [loopChunks, hres] at hok ⊢
      have h2 := ih _ _ _ hok
      have h3 := loopSafe_ok (enforce_max_length c MAX_CHARS) counter embeds pending hres
      simp only [subChunkCount, List.map_cons, List.sum_cons] at h2 h3 ⊢
      omega

theorem loopChunks_err {env : Env} {fn st : Str} :
    ∀ (chunks : List Str) (counter embeds : Nat) (pending : List Row) (e : PyErr),
      (loopChunks env fn st chunks counter embeds pending).res = .error e →
      (∃ k s, env.embed k s = .error e) ∨ (∃ k row, env.insert k row = .error e) := by
  intro chunks
  induction chunks with
  | nil =>
    intro counter embeds pending e h
    simp [loopChunks] at h
  | cons c rest ih =>
    intro counter embeds pending e h
    cases hres : (loopSafe env fn st (enforce_max_length c MAX_CHARS)
        counter embeds pending).res with
    | error e2 =>
      simp only [loopChunks, hres] at h
      rw [h] at hres
      exact loopSafe_err _ _ _ _ _ hres
    | ok u =>
      simp only [loopChunks, hres] at h
      exact ih _ _ _ _ h

/-! ### Claim theorems -/

/-- C3: for every string `t` and every `maxChars > 0`, the sequence
returned by `enforce_max_length t maxChars`, concatenated in order,
reconstructs `t` exactly with no loss or reordering of characters, and
every element of the sequence has length at most `maxChars`. -/
theorem C3_enforce_reconstructs (t : Str) (maxChars : Nat) (h : 0 < maxChars) :
    (enforce_max_length t maxChars).flatten = t ∧
      ∀ s ∈ enforce_max_length t maxChars, s.length ≤ maxChars :=
  ⟨enforce_flatten h t, fun s hs => (enforce_mem h t s hs).1⟩

theorem C3_witness :
    0 < 3 ∧ ((enforce_max_length "abcdefgh".toList 3).flatten = "abcdefgh".toList ∧
      ∀ s ∈ enforce_max_length "abcdefgh".toList 3, s.length ≤ 3) :=
  ⟨by decide, C3_enforce_reconstructs "abcdefgh".toList 3 (by decide)⟩

/-- C4 counterexample: on the empty chunk (whose length is at most any
positive `maxChars`), `enforce_max_length` returns the empty sequence,
not a single-element sequence equal to the input, so the claim that the
result always has one or more elements, and is `[chunk]` whenever
`length chunk <= maxChars`, fails at `chunk = ""`, `maxChars = 5`. -/
theorem C4_counterexample :
    enforce_max_length ([] : Str) 5 = [] ∧
      (enforce_max_length ([] : Str) 5).length = 0 ∧
      enforce_max_length ([] : Str) 5 ≠ [([] : Str)] := by
  refine ⟨by decide, by decide, by decide⟩

/-- C4 (amended): for every `maxChars > 0`, `enforce_max_length` returns
an ordered sequence of substrings which is non-empty whenever the chunk
is non-empty; whenever `0 < length chunk <= maxChars` it is exactly the
single-element sequence `[chunk]`; the empty chunk yields the empty
sequence (not a singleton). -/
theorem C4_enforce_shape (chunk : Str) (maxChars : Nat) (h : 0 < maxChars) :
    (chunk ≠ [] → 1 ≤ (enforce_max_length chunk maxChars).length ∧
      (chunk.length ≤ maxChars → enforce_max_length chunk maxChars = [chunk])) ∧
    (chunk = [] → enforce_max_length chunk maxChars = []) := by
  constructor
  · intro hne
    have hpos : 0 < chunk.length := List.length_pos.mpr hne
    constructor
    · rw [enforce_cons h hne]
      simp
    · intro hle
      exact enforce_singleton h hpos hle
  · rintro rfl
    exact enforce_nil _

theorem C4_witness :
    0 < 5 ∧
      (("ab".toList ≠ [] → 1 ≤ (enforce_max_length "ab".toList 5).length ∧
        (("ab".toList : Str).length ≤ 5 → enforce_max_length "ab".toList 5 = ["ab".toList])) ∧
      ("ab".toList = [] → enforce_max_length "ab".toList 5 = [])) :=
  ⟨by decide, C4_enforce_shape "ab".toList 5 (by decide)⟩

/-- C9: for every string `t` (including the empty string), the normalizer
`clean_chunk` is idempotent and never increases length. -/
theorem C9_clean_chunk_idempotent (t : Str) :
    clean_chunk (clean_chunk t) = clean_chunk t ∧
      (clean_chunk t).length ≤ t.length :=
  ⟨clean_chunk_idem t, clean_chunk_length t⟩

/-- C5: for every text and configuration with `overlap < chunk_size`
(hence `chunk_size > 0`), the fixed-window splitter terminates — any
fuel beyond the guaranteed `text.length + 1` iterations computes the
same result — and window `i` covers text offsets
`i*(chunk_size-overlap)` through `i*(chunk_size-overlap)+chunk_size`
for every `i` with start offset within the text length; windows whose
stripped content is empty are omitted from the output while the cursor
still advances by `chunk_size - overlap` (they occupy their index `i`
in the window sequence and are removed only by the final filter). -/
theorem C5_split_fixed_windows (text : Str) (chunk_size overlap : Nat)
    (h : overlap < chunk_size) :
    split_text_fixed text chunk_size overlap =
      ((List.range (pyRangeLen text.length (chunk_size - overlap))).map
          (fun i => pySlice text (i * (chunk_size - overlap))
            (i * (chunk_size - overlap) + chunk_size))).filter
        (fun c => !(stripList c).isEmpty) ∧
      ∀ fuel, text.length + 1 ≤ fuel →
        split_text_fixed_loop text chunk_size overlap fuel 0 =
          split_text_fixed text chunk_size overlap := by
  have hstep : 0 < chunk_size - overlap := by omega
  have key : ∀ fuel : Nat, text.length + 1 ≤ fuel →
      split_text_fixed_loop text chunk_size overlap fuel 0 =
        ((List.range (pyRangeLen text.length (chunk_size - overlap))).map
            (fun i => pySlice text (i * (chunk_size - overlap))
              (i * (chunk_size - overlap) + chunk_size))).filter
          (fun c => !(stripList c).isEmpty) := by
    intro fuel hf
    have h1 : fuel ≤ fuel * (chunk_size - overlap) :=
      Nat.le_mul_of_pos_right fuel hstep
    have h2 := @split_loop_eq text chunk_size overlap h fuel 0 (by omega)
    simpa using h2
  have hbase := key (text.length + 1) (le_refl _)
  refine ⟨hbase, fun fuel hf => ?_⟩
  rw [key fuel hf]
  exact hbase.symm

theorem C5_witness :
    1 < 3 ∧
      (split_text_fixed "abcdef".toList 3 1 =
        ((List.range (pyRangeLen ("abcdef".toList : Str).length (3 - 1))).map
            (fun i => pySlice "abcdef".toList (i * (3 - 1)) (i * (3 - 1) + 3))).filter
          (fun c => !(stripList c).isEmpty) ∧
      ∀ fuel, ("abcdef".toList : Str).length + 1 ≤ fuel →
        split_text_fixed_loop "abcdef".toList 3 1 fuel 0 =
          split_text_fixed "abcdef".toList 3 1) :=
  ⟨by decide, C5_split_fixed_windows "abcdef".toList 3 1 (by decide)⟩

/-! ### Environments used by concrete runs -/

/-- An environment whose external calls all succeed: the file exists,
both extractors return `text`, and connection, embedding, insertion and
commit succeed. -/
def envAllOk (text : Str) : Env :=
  { exists_file := fun _ => true
    extract_pdf := fun _ => .ok text
    extract_docx := fun _ => .ok text
    connect := .ok ()
    embed := fun _ _ => .ok []
    insert := fun _ _ => .ok ()
    commit := .ok () }

/-- Like `envAllOk "hi"` but every embedding call fails. -/
def envEmbedFails : Env :=
  { envAllOk "hi".toList with embed := fun _ _ => .error (.embeddingFailure "quota".toList) }

/-- Like `envAllOk` but both extractors fail. -/
def envExtractFails : Env :=
  { envAllOk "hi".toList with
    extract_pdf := fun _ => .error (.extractionFailure "pdf parser crashed".toList)
    extract_docx := fun _ => .error (.extractionFailure "docx parser crashed".toList) }

/-! ### Success-path helper -/

theorem process_success_rows (env : Env) (p s text : Str) (raw : List Str)
    (h1 : env.exists_file p = true)
    (h2 : extract_text env p = .ok text)
    (h3 : chunk_text text s = .ok raw)
    (h4 : (process_document env p s).result = .ok none) :
    (process_document env p s).committed = true ∧
      (process_document env p s).rows.length = subChunkCount (raw.map clean_chunk) := by
  have h1' : ¬(env.exists_file p = false) := by simp [h1]
  cases h5 : env.connect with
  | error e => simp [process_document, h1', h2, h3, h5] at h4
  | ok u =>
    cases u
    cases h6 : (loopChunks env (pathName p) s (List.map clean_chunk raw) 0 0 []).res with
    | error e => simp [process_document, h1', h2, h3, h5, h6] at h4
    | ok u2 =>
      cases u2
      cases h7 : env.commit with
      | error e => simp [process_document, h1', h2, h3, h5, h6, h7] at h4
      | ok u3 =>
        cases u3
        have hlen := loopChunks_ok (List.map clean_chunk raw) 0 0 [] h6
        simp only [List.length_nil, Nat.zero_add] at hlen
        simp [process_document, h1', h2, h3, h5, h6, h7, hlen]

/-- C1: on every run, the transactional scope, once opened, is closed on
every exit path; and whenever the run fails (the result is an error),
no rows remain visible in the store, the transaction is not committed,
and — when the failure happened inside the transactional scope — the
transaction was rolled back and the propagated error is exactly the
error of a failing embedding call, storage write or commit. -/
theorem C1_rollback_on_failure (env : Env) (p s : Str) :
    ((process_document env p s).conn_opened = true →
      (process_document env p s).conn_closed = true) ∧
    (∀ e, (process_document env p s).result = .error e →
      (process_document env p s).rows = [] ∧
      (process_document env p s).committed = false ∧
      ((process_document env p s).conn_opened = true →
        (process_document env p s).rolledBack = true ∧
        ((∃ k sc, env.embed k sc = .error e) ∨
          (∃ k row, env.insert k row = .error e) ∨
          env.commit = .error e))) := by
  by_cases h1 : env.exists_file p = false
  · simp [process_document, h1]
  · cases h2 : extract_text env p with
    | error e0 => simp [process_document, h1, h2]
    | ok text =>
      cases h3 : chunk_text text s with
      | error e0 => simp [process_document, h1, h2, h3]
      | ok raw =>
        cases h4 : env.connect with
        | error e0 => simp [process_document, h1, h2, h3, h4]
        | ok u =>
          cases u
          cases h5 : (loopChunks env (pathName p) s (List.map clean_chunk raw) 0 0 []).res with
          | error e0 =>
            have hattr := loopChunks_err _ _ _ _ _ h5
            simp [process_document, h1, h2, h3, h4, h5]
            rcases hattr with h | h
            · exact Or.inl h
            · exact Or.inr (Or.inl h)
          | ok u2 =>
            cases u2
            cases h6 : env.commit with
            | error e0 =>
              simp [process_document, h1, h2, h3, h4, h5, h6]
            | ok u3 =>
              cases u3
              simp [process_document, h1, h2, h3, h4, h5, h6]

/-- C2 counterexample: a fully successful ingestion of a one-chunk
document commits one row, yet `process_document` returns `None` (the
Python function has no `return` statement), not the record count 1, so
the claim that the count is returned to the caller fails on this run. -/
theorem C2_counterexample :
    (process_document (envAllOk "hello".toList) "doc.pdf".toList "fixed".toList).result =
        .ok none ∧
      (process_document (envAllOk "hello".toList) "doc.pdf".toList "fixed".toList).rows.length = 1 ∧
      (process_document (envAllOk "hello".toList) "doc.pdf".toList "fixed".toList).result ≠
        .ok (some 1) := by
  refine ⟨by decide, by decide, by decide⟩

/-- C2 (amended): when every sub-chunk of every chunk is embedded and
stored without error, `process_document` commits the transaction, and
the number of IngestionRecords visible in the store equals the total
count of bounded sub-chunks derived from the document; the function
itself, however, returns `None` (the count is only printed), not the
count. -/
theorem C2_commit_on_success (env : Env) (p s text : Str) (raw : List Str)
    (h1 : env.exists_file p = true)
    (h2 : extract_text env p = .ok text)
    (h3 : chunk_text text s = .ok raw)
    (h4 : (process_document env p s).result = .ok none) :
    (process_document env p s).committed = true ∧
      (process_document env p s).rows.length = subChunkCount (raw.map clean_chunk) ∧
      (process_document env p s).result = .ok none :=
  ⟨(process_success_rows env p s text raw h1 h2 h3 h4).1,
    (process_success_rows env p s text raw h1 h2 h3 h4).2, h4⟩

theorem C2_witness :
    (envAllOk "hello".toList).exists_file "doc.pdf".toList = true ∧
      ((process_document (envAllOk "hello".toList) "doc.pdf".toList "fixed".toList).committed = true ∧
        (process_document (envAllOk "hello".toList) "doc.pdf".toList "fixed".toList).rows.length =
          subChunkCount ((split_text_fixed "hello".toList 500 50).map clean_chunk) ∧
        (process_document (envAllOk "hello".toList) "doc.pdf".toList "fixed".toList).result =
          .ok none) :=
  ⟨by decide,
    C2_commit_on_success (envAllOk "hello".toList) "doc.pdf".toList "fixed".toList
      "hello".toList (split_text_fixed "hello".toList 500 50)
      (by decide) (by decide) (by decide) (by decide)⟩

/-- C7 counterexample: with an unrecognized strategy name ("bogus") and
an existing `.pdf` document whose extraction fails, the pipeline
propagates the extraction failure, not `UnsupportedStrategy` — so
strategy validation does not happen before extraction is invoked, and a
run with an unrecognized strategy need not fail with
`UnsupportedStrategy`. -/
theorem C7_counterexample :
    (process_document envExtractFails "doc.pdf".toList "bogus".toList).result =
        .error (.extractionFailure "pdf parser crashed".toList) ∧
      (process_document envExtractFails "doc.pdf".toList "bogus".toList).result ≠
        .error (.unsupportedStrategy "bogus".toList) := by
  refine ⟨by decide, by decide⟩

/-- C7 (amended): with an unrecognized strategy name, once extraction
has succeeded the run fails with the `UnsupportedStrategy` `ValueError`
raised by `chunk_text`, before any database connection is opened and
before any embedding call; but this validation happens only after
extraction — an extraction failure preempts it and is what the caller
sees.  (The CLI layer separately restricts the strategy option to the
three recognized names before `process_document` runs.) -/
theorem C7_strategy_validated_after_extraction (env : Env) (p s : Str)
    (h1 : env.exists_file p = true)
    (hs1 : s ≠ "fixed".toList) (hs2 : s ≠ "sentence".toList)
    (hs3 : s ≠ "paragraph".toList) :
    (∀ text, extract_text env p = .ok text →
      (process_document env p s).result = .error (.unsupportedStrategy s) ∧
        (process_document env p s).conn_opened = false ∧
        (process_document env p s).embed_calls = 0 ∧
        (process_document env p s).rows = []) ∧
    (∀ e, extract_text env p = .error e →
      (process_document env p s).result = .error e) := by
  have h1' : ¬(env.exists_file p = false) := by simp [h1]
  constructor
  · intro text h2
    have h3 : chunk_text text s = .error (.unsupportedStrategy s) := by
      unfold chunk_text
      rw [if_neg hs1, if_neg hs2, if_neg hs3]
    simp [process_document, h1', h2, h3]
  · intro e h2
    simp [process_document, h1', h2]

theorem C7_witness :
    (envAllOk "hi".toList).exists_file "doc.pdf".toList = true ∧
      ("bogus".toList ≠ "fixed".toList ∧ "bogus".toList ≠ "sentence".toList ∧
        "bogus".toList ≠ "paragraph".toList) ∧
      ((process_document (envAllOk "hi".toList) "doc.pdf".toList "bogus".toList).result =
          .error (.unsupportedStrategy "bogus".toList) ∧
        (process_document (envAllOk "hi".toList) "doc.pdf".toList "bogus".toList).conn_opened =
          false ∧
        (process_document (envAllOk "hi".toList) "doc.pdf".toList "bogus".toList).embed_calls =
          0 ∧
        (process_document (envAllOk "hi".toList) "doc.pdf".toList "bogus".toList).rows = []) :=
  ⟨by decide, ⟨by decide, by decide, by decide⟩,
    (C7_strategy_validated_after_extraction (envAllOk "hi".toList) "doc.pdf".toList
        "bogus".toList (by decide) (by decide) (by decide) (by decide)).1
      "hi".toList (by decide)⟩

/-- C8: for every existing document path whose lower-cased extension is
neither `.pdf` nor `.docx`, the run fails with the `UnsupportedFormat`
`ValueError` carrying that extension, with no embedding call made and
no database connection opened (and no rows stored). -/
theorem C8_unsupported_format (env : Env) (p s : Str)
    (h1 : env.exists_file p = true)
    (h2 : fileExtOf p ≠ ".pdf".toList)
    (h3 : fileExtOf p ≠ ".docx".toList) :
    (process_document env p s).result = .error (.unsupportedFormat (fileExtOf p)) ∧
      (process_document env p s).embed_calls = 0 ∧
      (process_document env p s).conn_opened = false ∧
      (process_document env p s).rows = [] := by
  have h1' : ¬(env.exists_file p = false) := by simp [h1]
  have hex : extract_text env p = .error (.unsupportedFormat (fileExtOf p)) := by
    simp only [extract_text]
    rw [if_neg h2, if_neg h3]
  simp [process_document, h1', hex]

theorem C8_witness :
    (envAllOk "hi".toList).exists_file "doc.txt".toList = true ∧
      fileExtOf "doc.txt".toList ≠ ".pdf".toList ∧
      fileExtOf "doc.txt".toList ≠ ".docx".toList ∧
      ((process_document (envAllOk "hi".toList) "doc.txt".toList "fixed".toList).result =
          .error (.unsupportedFormat (fileExtOf "doc.txt".toList)) ∧
        (process_document (envAllOk "hi".toList) "doc.txt".toList "fixed".toList).embed_calls =
          0 ∧
        (process_document (envAllOk "hi".toList) "doc.txt".toList "fixed".toList).conn_opened =
          false ∧
        (process_document (envAllOk "hi".toList) "doc.txt".toList "fixed".toList).rows = []) :=
  ⟨by decide, by decide, by decide,
    C8_unsupported_format (envAllOk "hi".toList) "doc.txt".toList "fixed".toList
      (by decide) (by decide) (by decide)⟩

theorem sum_map_ones {α : Type} (l : List α) (f : α → Nat) (h : ∀ x ∈ l, f x = 1) :
    (l.map f).sum = l.length := by
  induction l with
  | nil => rfl
  | cons a t ih =>
    simp only [List.map_cons, List.sum_cons, List.length_cons,
      h a (List.mem_cons_self _ _), ih (fun x hx => h x (List.mem_cons_of_mem _ hx))]
    omega

/-- C10: every chunk the default fixed strategy produces has length at
most 500; since `clean_chunk` never increases length and
`500 <= MAX_CHARS = 6000`, `enforce_max_length` applied (at its default
`MAX_CHARS`) to each cleaned fixed chunk is exactly the one-element
sequence holding that cleaned chunk; hence on a fully successful
fixed-strategy run the number of records written equals the number of
chunks produced by chunking. -/
theorem C10_fixed_records (text : Str) :
    (MAX_CHARS = 6000 ∧ 500 ≤ MAX_CHARS) ∧
    (∀ c ∈ split_text_fixed text 500 50, c.length ≤ 500 ∧
      enforce_max_length (clean_chunk c) MAX_CHARS = [clean_chunk c]) ∧
    (∀ (env : Env) (p s : Str), env.exists_file p = true →
      extract_text env p = .ok text → s = "fixed".toList →
      (process_document env p s).result = .ok none →
      (process_document env p s).rows.length = (split_text_fixed text 500 50).length) := by
  have hsingle : ∀ c ∈ split_text_fixed text 500 50, c.length ≤ 500 ∧
      enforce_max_length (clean_chunk c) MAX_CHARS = [clean_chunk c] := by
    intro c hc
    have hc2 : c ∈ split_text_fixed_loop text 500 50 (text.length + 1) 0 := hc
    obtain ⟨hstrip, hlen⟩ := split_loop_mem (text.length + 1) 0 c hc2
    have hne : stripList c ≠ [] := List.isEmpty_eq_false.mp hstrip
    obtain ⟨x, hx, hxws⟩ := exists_nonws_of_strip_ne_nil hne
    have hcl_ne : clean_chunk c ≠ [] := clean_chunk_ne_nil ⟨x, hx, hxws⟩
    have hcl_pos : 0 < (clean_chunk c).length := List.length_pos.mpr hcl_ne
    have hcl_le : (clean_chunk c).length ≤ MAX_CHARS :=
      le_trans (clean_chunk_length c) (le_trans hlen (by decide))
    exact ⟨hlen, enforce_singleton (by decide) hcl_pos hcl_le⟩
  refine ⟨⟨rfl, by decide⟩, hsingle, ?_⟩
  intro env p s h1 h2 hs h4
  subst hs
  have h3 : chunk_text text "fixed".toList = .ok (split_text_fixed text 500 50) := by
    unfold chunk_text
    rw [if_pos rfl]
  have hrows := (process_success_rows env p "fixed".toList text
    (split_text_fixed text 500 50) h1 h2 h3 h4).2
  rw [hrows]
  unfold subChunkCount
  rw [List.map_map]
  exact sum_map_ones (split_text_fixed text 500 50) _
    (fun c hc => by simp [(hsingle c hc).2])

theorem C10_witness :
    (process_document (envAllOk "hello world".toList) "doc.pdf".toList
        "fixed".toList).rows.length =
      (split_text_fixed "hello world".toList 500 50).length :=
  (C10_fixed_records "hello world".toList).2.2 (envAllOk "hello world".toList)
    "doc.pdf".toList "fixed".toList (by decide) (by decide) rfl (by decide)

theorem chunk_text_mem_nonws {text s : Str} {raw : List Str}
    (h : chunk_text text s = .ok raw) :
    ∀ c ∈ raw, ∃ x ∈ c, isPyWs x = false := by
  unfold chunk_text at h
  by_cases hf : s = "fixed".toList
  · rw [if_pos hf] at h
    injection h with h
    subst h
    intro c hc
    have hc2 : c ∈ split_text_fixed_loop text 500 50 (text.length + 1) 0 := hc
    obtain ⟨hstrip, _⟩ := split_loop_mem _ _ c hc2
    exact exists_nonws_of_strip_ne_nil (List.isEmpty_eq_false.mp hstrip)
  · rw [if_neg hf] at h
    by_cases hs : s = "sentence".toList
    · rw [if_pos hs] at h
      injection h with h
      subst h
      intro c hc
      have h2 := (List.mem_filter.mp hc).2
      exact exists_nonws_of_strip_ne_nil (by simpa using h2)
    · rw [if_neg hs] at h
      by_cases hp : s = "paragraph".toList
      · rw [if_pos hp] at h
        injection h with h
        subst h
        intro c hc
        have h2 := (List.mem_filter.mp hc).2
        exact exists_nonws_of_strip_ne_nil (by simpa using h2)
      · rw [if_neg hp] at h
        cases h

/-- C6 (amended): chunks that would normalize to empty cannot occur —
every raw chunk of every recognized strategy contains a non-whitespace
character, so its normalization is non-empty (an empty normalization
would anyway produce zero bounded sub-chunks and store nothing); and
every stored `chunk_text` is a non-empty member of the bounded slicing
of the normalization of some raw chunk.  Stored rows are, however, not
guaranteed to be non-whitespace: slicing a normalized chunk longer than
`MAX_CHARS` can store a whitespace-only sub-chunk. -/
theorem C6_stored_rows (env : Env) (p s text : Str) (raw : List Str)
    (h1 : env.exists_file p = true)
    (h2 : extract_text env p = .ok text)
    (h3 : chunk_text text s = .ok raw) :
    (∀ c ∈ raw, clean_chunk c ≠ []) ∧
    (∀ row ∈ (process_document env p s).rows,
      row.chunk_text ≠ [] ∧
      ∃ c ∈ raw, row.chunk_text ∈ enforce_max_length (clean_chunk c) MAX_CHARS) := by
  have hnonws := chunk_text_mem_nonws h3
  have h1' : ¬(env.exists_file p = false) := by simp [h1]
  constructor
  · intro c hc
    exact clean_chunk_ne_nil (hnonws c hc)
  · intro row hrow
    cases h5 : env.connect with
    | error e =>
      have hnil : (process_document env p s).rows = [] := by
        simp [process_document, h1', h2, h3, h5]
      rw [hnil] at hrow
      cases hrow
    | ok u =>
      cases u
      cases h6 : (loopChunks env (pathName p) s (List.map clean_chunk raw) 0 0 []).res with
      | error e =>
        have hnil : (process_document env p s).rows = [] := by
          simp [process_document, h1', h2, h3, h5, h6]
        rw [hnil] at hrow
        cases hrow
      | ok u2 =>
        cases u2
        cases h7 : env.commit with
        | error e =>
          have hnil : (process_document env p s).rows = [] := by
            simp [process_document, h1', h2, h3, h5, h6, h7]
          rw [hnil] at hrow
          cases hrow
        | ok u3 =>
          cases u3
          have hrows_eq : (process_document env p s).rows =
              (loopChunks env (pathName p) s (List.map clean_chunk raw) 0 0 []).pending := by
            simp [process_document, h1', h2, h3, h5, h6, h7]
          rw [hrows_eq] at hrow
          rcases loopChunks_mem _ _ _ _ row hrow with hmem | ⟨c2, hc2, hmem⟩
          · cases hmem
          · obtain ⟨c0, hc0, rfl⟩ := List.mem_map.mp hc2
            exact ⟨(enforce_mem (by decide) _ _ hmem).2, c0, hc0, hmem⟩

theorem C6_witness :
    (∀ c ∈ split_text_fixed "hello".toList 500 50, clean_chunk c ≠ []) ∧
      (∀ row ∈ (process_document (envAllOk "hello".toList) "d.pdf".toList
          "fixed".toList).rows,
        row.chunk_text ≠ [] ∧
        ∃ c ∈ split_text_fixed "hello".toList 500 50,
          row.chunk_text ∈ enforce_max_length (clean_chunk c) MAX_CHARS) :=
  C6_stored_rows (envAllOk "hello".toList) "d.pdf".toList "fixed".toList "hello".toList
    (split_text_fixed "hello".toList 500 50) (by decide) (by decide) (by decide)

/-! ### The C6 counterexample construction: a 12001-character extracted
text with no sentence punctuation whose normalization is itself, so the
single sentence chunk is sliced at `MAX_CHARS = 6000` into three
sub-chunks, the middle of which is whitespace-only and is stored. -/

/-- An alternating run `" \n \n ..."` of length `2 n`: every character
is whitespace, yet no two adjacent characters repeat, so `clean_chunk`
leaves it intact. -/
def wsPat : Nat → Str
  | 0 => []
  | n + 1 => ' ' :: '\n' :: wsPat n

/-- Six thousand `'X'` characters: the first `MAX_CHARS` slice. -/
def xBlock : Str := List.replicate 6000 'X'

/-- The extracted text `xBlock ++ wsPat 3000 ++ ['Y']` (12001 chars). -/
def bigText : Str := xBlock ++ (wsPat 3000 ++ ['Y'])

/-- All-successful environment whose extractors return `bigText`. -/
def envBig : Env := envAllOk bigText

theorem wsPat_length (n : Nat) : (wsPat n).length = 2 * n := by
  induction n with
  | zero => rfl
  | succ m ih =>
    simp only [wsPat, List.length_cons, ih]
    omega

theorem wsPat_mem (n : Nat) : ∀ c ∈ wsPat n, c = ' ' ∨ c = '\n' := by
  induction n with
  | zero => intro c hc; cases hc
  | succ m ih =>
    intro c hc
    simp only [wsPat, List.mem_cons] at hc
    rcases hc with rfl | rfl | hc
    · exact Or.inl rfl
    · exact Or.inr rfl
    · exact ih c hc

theorem wsPat_all_ws (n : Nat) : (wsPat n).all isPyWs = true := by
  rw [List.all_eq_true]
  intro c hc
  rcases wsPat_mem n c hc with rfl | rfl <;> decide

theorem wsPat_ne_nil : wsPat 3000 ≠ [] := by
  intro h
  have h2 := congrArg List.length h
  rw [wsPat_length] at h2
  simp at h2

theorem chain'_of_replicate {P : Char → Char → Prop} (c : Char) (h : P c c) :
    ∀ n, List.Chain' P (List.replicate n c) := by
  intro n
  induction n with
  | zero => simp
  | succ m ih =>
    rw [List.replicate_succ]
    refine List.chain'_cons'.mpr ⟨?_, ih⟩
    intro y hy
    cases m with
    | zero => simp at hy
    | succ k =>
      rw [List.replicate_succ] at hy
      simp only [List.head?_cons, Option.mem_def, Option.some.injEq] at hy
      subst hy
      exact h

theorem getLast?_replicate {c x : Char} : ∀ {n : Nat},
    x ∈ (List.replicate n c).getLast? → x = c := by
  intro n hx
  cases n with
  | zero => simp at hx
  | succ m =>
    rw [List.replicate_succ', List.getLast?_concat] at hx
    simp only [Option.mem_def, Option.some.injEq] at hx
    exact hx.symm

theorem wsPat_append_chain {P : Char → Char → Prop} {t : Str}
    (hsn : P ' ' '\n') (hns : P '\n' ' ') (hnt : ∀ y ∈ t.head?, P '\n' y)
    (ht : List.Chain' P t) : ∀ n, List.Chain' P (wsPat n ++ t) := by
  intro n
  induction n with
  | zero => simpa [wsPat] using ht
  | succ m ih =>
    show List.Chain' P (' ' :: '\n' :: (wsPat m ++ t))
    refine List.chain'_cons'.mpr ⟨?_, List.chain'_cons'.mpr ⟨?_, ih⟩⟩
    · intro y hy
      simp only [List.head?_cons, Option.mem_def, Option.some.injEq] at hy
      subst hy
      exact hsn
    · intro y hy
      cases m with
      | zero =>
        simp only [wsPat, List.nil_append] at hy
        exact hnt y hy
      | succ k =>
        simp only [wsPat, List.cons_append, List.head?_cons, Option.mem_def,
          Option.some.injEq] at hy
        subst hy
        exact hns

theorem bigText_mem : ∀ c ∈ bigText, c = 'X' ∨ c = ' ' ∨ c = '\n' ∨ c = 'Y' := by
  intro c hc
  unfold bigText at hc
  rcases List.mem_append.mp hc with h | h
  · exact Or.inl (List.eq_of_mem_replicate h)
  · rcases List.mem_append.mp h with h | h
    · rcases wsPat_mem 3000 c h with rfl | rfl
      · exact Or.inr (Or.inl rfl)
      · exact Or.inr (Or.inr (Or.inl rfl))
    · simp only [List.mem_singleton] at h
      subst h
      exact Or.inr (Or.inr (Or.inr rfl))

theorem bigText_chain_sp : List.Chain' (sepBy isSpTab) bigText := by
  unfold bigText
  rw [List.chain'_append]
  refine ⟨chain'_of_replicate 'X' (Or.inl (by decide)) 6000, ?_, ?_⟩
  · apply wsPat_append_chain
    · exact Or.inr (by decide)
    · exact Or.inl (by decide)
    · intro y _
      exact Or.inl (by decide)
    · simp
  · intro x hx y _
    rw [getLast?_replicate hx]
    exact Or.inl (by decide)

theorem bigText_chain_nl : List.Chain' (sepBy isNlChar) bigText := by
  unfold bigText
  rw [List.chain'_append]
  refine ⟨chain'_of_replicate 'X' (Or.inl (by decide)) 6000, ?_, ?_⟩
  · apply wsPat_append_chain
    · exact Or.inl (by decide)
    · exact Or.inr (by decide)
    · intro y hy
      simp only [List.head?_cons, Option.mem_def, Option.some.injEq] at hy
      subst hy
      exact Or.inr (by decide)
    · simp
  · intro x hx y _
    rw [getLast?_replicate hx]
    exact Or.inl (by decide)

theorem bigText_allRep_sp : ∀ c ∈ bigText, isSpTab c = true → c = ' ' := by
  intro c hc hsp
  rcases bigText_mem c hc with rfl | rfl | rfl | rfl
  · cases hsp
  · rfl
  · cases hsp
  · cases hsp

theorem bigText_head : bigText.head? = some 'X' := by
  show ((List.replicate 6000 'X') ++ (wsPat 3000 ++ ['Y'])).head? = some 'X'
  rw [show (6000 : Nat) = 5999 + 1 from rfl, List.replicate_succ]
  rfl

theorem bigText_getLast : bigText.getLast? = some 'Y' := by
  unfold bigText
  rw [List.getLast?_append_of_ne_nil _ (by simp), List.getLast?_concat]

theorem bigText_strip : stripList bigText = bigText := by
  apply strip_eq_self
  · intro h hh
    rw [bigText_head] at hh
    simp only [Option.mem_def, Option.some.injEq] at hh
    subst hh
    decide
  · intro h hh
    rw [bigText_getLast] at hh
    simp only [Option.mem_def, Option.some.injEq] at hh
    subst hh
    decide

theorem bigText_length : bigText.length = 12001 := by
  show (xBlock ++ (wsPat 3000 ++ ['Y'])).length = 12001
  rw [List.length_append, List.length_append, wsPat_length]
  unfold xBlock
  rw [List.length_replicate]
  decide

theorem bigText_ne_nil : bigText ≠ [] := by
  intro h
  have h2 := congrArg List.length h
  rw [bigText_length, List.length_nil] at h2
  omega

theorem bigText_clean : clean_chunk bigText = bigText := by
  have e1 : collapseSpaces bigText = bigText :=
    collapseAux_id bigText false bigText_allRep_sp bigText_chain_sp (by simp)
  have e2 : collapseNewlines bigText = bigText :=
    collapseAux_id bigText false (fun c _ hc => by simpa [isNlChar] using hc)
      bigText_chain_nl (by simp)
  show stripList (collapseNewlines (collapseSpaces bigText)) = bigText
  rw [e1, e2]
  exact bigText_strip

theorem sentSplitAux_no_punct :
    ∀ (l : Str), (∀ c ∈ l, isSentPunct c = false) → ∀ acc : Str,
      sentSplitAux false acc l = [acc.reverse ++ l] := by
  intro l
  induction l with
  | nil => intro _ acc; simp [sentSplitAux]
  | cons c cs ih =>
    intro h acc
    have hc := h c (List.mem_cons_self _ _)
    simp only [sentSplitAux, Bool.false_and, hc, Bool.false_eq_true, if_false]
    rw [ih (fun x hx => h x (List.mem_cons_of_mem _ hx)) (c :: acc)]
    simp [List.reverse_cons, List.append_assoc]

theorem bigText_sentence : split_text_sentence bigText = [bigText] := by
  unfold split_text_sentence
  have hnp : ∀ c ∈ bigText, isSentPunct c = false := by
    intro c hc
    rcases bigText_mem c hc with rfl | rfl | rfl | rfl <;> decide
  rw [sentSplitAux_no_punct bigText hnp []]
  have hst : (stripList bigText).isEmpty = false := by
    rw [bigText_strip]
    exact List.isEmpty_eq_false.mpr bigText_ne_nil
  simp [List.filter, hst]

theorem bigText_enforce :
    enforce_max_length bigText MAX_CHARS = [xBlock, wsPat 3000, ['Y']] := by
  have hx : xBlock.length = MAX_CHARS := by
    unfold xBlock
    rw [List.length_replicate]
    rfl
  have hw : (wsPat 3000).length = MAX_CHARS := by
    rw [wsPat_length]
    rfl
  have hMpos : (0 : Nat) < MAX_CHARS := by decide
  have h1 : enforce_max_length bigText MAX_CHARS =
      bigText.take MAX_CHARS :: enforce_max_length (bigText.drop MAX_CHARS) MAX_CHARS :=
    enforce_cons hMpos bigText_ne_nil
  have ht : bigText.take MAX_CHARS = xBlock := by
    show (xBlock ++ (wsPat 3000 ++ ['Y'])).take MAX_CHARS = xBlock
    exact List.take_left' hx
  have hd : bigText.drop MAX_CHARS = wsPat 3000 ++ ['Y'] := by
    show (xBlock ++ (wsPat 3000 ++ ['Y'])).drop MAX_CHARS = wsPat 3000 ++ ['Y']
    exact List.drop_left' hx
  have hne2 : wsPat 3000 ++ ['Y'] ≠ [] := by simp
  have h2 : enforce_max_length (wsPat 3000 ++ ['Y']) MAX_CHARS =
      (wsPat 3000 ++ ['Y']).take MAX_CHARS ::
        enforce_max_length ((wsPat 3000 ++ ['Y']).drop MAX_CHARS) MAX_CHARS :=
    enforce_cons hMpos hne2
  have ht2 : (wsPat 3000 ++ ['Y']).take MAX_CHARS = wsPat 3000 := List.take_left' hw
  have hd2 : (wsPat 3000 ++ ['Y']).drop MAX_CHARS = ['Y'] := List.drop_left' hw
  have h3 : enforce_max_length ['Y'] MAX_CHARS = [['Y']] :=
    enforce_singleton hMpos (by decide) (by decide)
  rw [h1, ht, hd, h2, ht2, hd2, h3]

/-- Helper: on a fully successful run the visible rows are the
transaction's pending rows. -/
theorem process_rows_of_success (env : Env) (p s text : Str) (raw : List Str)
    (h1 : ¬(env.exists_file p = false))
    (h2 : extract_text env p = .ok text)
    (h3 : chunk_text text s = .ok raw)
    (h4 : env.connect = .ok ())
    (h5 : (loopChunks env (pathName p) s (List.map clean_chunk raw) 0 0 []).res = .ok ())
    (h6 : env.commit = .ok ()) :
    (process_document env p s).rows =
      (loopChunks env (pathName p) s (List.map clean_chunk raw) 0 0 []).pending := by
  simp [process_document, h1, h2, h3, h4, h5, h6]

/-- C6 counterexample: running the pipeline on an existing `.pdf` whose
extracted text is `bigText` with the `sentence` strategy (all external
calls succeeding) stores exactly three rows whose texts are `xBlock`,
`wsPat 3000` and `['Y']` — and the middle stored `chunk_text` is
non-empty but consists entirely of whitespace, refuting the claim that
every stored chunk text is not whitespace-only after normalization. -/
theorem C6_counterexample :
    ((process_document envBig "doc.pdf".toList "sentence".toList).rows.map
        Row.chunk_text) = [xBlock, wsPat 3000, ['Y']] ∧
      wsPat 3000 ≠ [] ∧ (wsPat 3000).all isPyWs = true := by
  refine ⟨?_, wsPat_ne_nil, wsPat_all_ws 3000⟩
  have hne1 : ("sentence".toList : Str) ≠ "fixed".toList := by decide
  have hchunk : chunk_text bigText "sentence".toList = .ok [bigText] := by
    unfold chunk_text
    rw [if_neg hne1, if_pos rfl, bigText_sentence]
  have hextq : fileExtOf "doc.pdf".toList = ".pdf".toList := by decide
  have hext : extract_text envBig "doc.pdf".toList = .ok bigText := by
    simp only [extract_text]
    rw [if_pos hextq]
    rfl
  have h1' : ¬(envBig.exists_file "doc.pdf".toList = false) := by decide
  have hmap : List.map clean_chunk [bigText] = [bigText] := by
    rw [List.map_cons, List.map_nil, bigText_clean]
  have hembed : ∀ (k : Nat) (sc : Str), envBig.embed k sc = .ok [] := fun _ _ => rfl
  have hins : ∀ (k : Nat) (r : Row), envBig.insert k r = .ok () := fun _ _ => rfl
  have hloop : ∀ fn st : Str, loopChunks envBig fn st [bigText] 0 0 [] =
      ⟨.ok (), 3, 3, [⟨xBlock, [], fn, st⟩, ⟨wsPat 3000, [], fn, st⟩,
        ⟨['Y'], [], fn, st⟩]⟩ := by
    intro fn st
    have hsafe : loopSafe envBig fn st [xBlock, wsPat 3000, ['Y']] 0 0 [] =
        ⟨.ok (), 3, 3, [⟨xBlock, [], fn, st⟩, ⟨wsPat 3000, [], fn, st⟩,
          ⟨['Y'], [], fn, st⟩]⟩ := by
      simp only [loopSafe, hembed, hins, List.nil_append, List.cons_append]
    simp only [loopChunks, bigText_enforce, hsafe]
  have hrows := process_rows_of_success envBig "doc.pdf".toList "sentence".toList
    bigText [bigText] h1' hext hchunk rfl
    (by rw [hmap, hloop]) rfl
  rw [hmap, hloop] at hrows
  rw [hrows]
  rfl
